import Mathlib

/-!
Shallow embedding of `rust/core-lib/src/quick_open.rs`.

Strings are modelled as `List Char`.  The source only manipulates paths and
query strings coming from file names; for ASCII text (which all concrete
inputs below are) Rust's byte-based `str::len`, `&text[1..]` and
`to_ascii_lowercase` coincide with character count, `List.tail` and
`Char.toLower`, which is how they are modelled here.

Rust paths (`Path`/`PathBuf`) are modelled as lists of components
(`List String`); on the OS a component never contains the separator, so a
component list determines the rendered path string.

Fallible operations are modelled with `Option`: a `none` result of
`fuzzyMatchCore` / `initiate_fuzzy_match` models a Rust panic
(out-of-bounds `Vec` index / slice).  All indexing in the source is
modelled with `List.get?` so that panics are visible rather than hidden
behind defaults.
-/

namespace QuickOpen

/-- Rust `const MATCH_LIMIT: usize = 100;` (quick_open.rs line 14). -/
def MATCH_LIMIT : Nat := 100

/-- Rust `const RECURSION_LIMIT: usize = 10;` (quick_open.rs line 15). -/
def RECURSION_LIMIT : Nat := 10

/-- Rust `const SEQUENTIAL_BONUS: usize = 16;` -/
def SEQUENTIAL_BONUS : Nat := 16

/-- Rust `const SEPARATOR_BONUS: usize = 16;` -/
def SEPARATOR_BONUS : Nat := 16

/-- Rust `const CAMELCASE_BONUS: usize = 16;` -/
def CAMELCASE_BONUS : Nat := 16

/-- Rust `const FIRST_LETTER_BONUS: usize = 16;` -/
def FIRST_LETTER_BONUS : Nat := 16

/-- Rust `const LEADING_LETTER_PENALTY: usize = 5;` -/
def LEADING_LETTER_PENALTY : Nat := 5

/-- Rust `const MAX_LEADING_LETTER_PENALTY: usize = 15;` -/
def MAX_LEADING_LETTER_PENALTY : Nat := 15

/-- Rust `const UNMATCHED_LETTER_PENALTY: usize = 1;` -/
def UNMATCHED_LETTER_PENALTY : Nat := 1

/-- The `for i in 0..matched_count` loop of `calculate_score`
(quick_open.rs lines 256-287).  `k` counts the remaining iterations, so the
current loop index is `i = matchedCount - k`.  `none` models the Rust panic
on an out-of-range `match_indices[i]` / `match_indices[i-1]`.  The
`_ => break` arm of the `match` on the two `nth` lookups terminates the
loop, returning the score accumulated so far (including the sequential
bonus already added in this iteration). -/
def calcScoreLoop (text : List Char) (mi : List Nat) (matchedCount : Nat) :
    Nat → Nat → Option Nat
  | 0, score => some score
  | k + 1, score =>
    let i := matchedCount - (k + 1)
    match mi.get? i with
    | none => none
    | some cur =>
      match (if i = 0 then some 0 else mi.get? (i - 1)) with
      | none => none
      | some prev =>
        let score1 := if cur = prev + 1 then score + SEQUENTIAL_BONUS else score
        if cur > 0 then
          match text.get? (cur - 1), text.get? cur with
          | some nb, some c =>
            let score2 := if nb.isLower ∧ c.isUpper then score1 + CAMELCASE_BONUS else score1
            let score3 := if nb = '_' ∨ nb = '-' then score2 + SEPARATOR_BONUS else score2
            calcScoreLoop text mi matchedCount k score3
          | _, _ => some score1
        else
          calcScoreLoop text mi matchedCount k (score1 + FIRST_LETTER_BONUS)

/-- Rust `fn calculate_score` (quick_open.rs lines 234-289).  Rust `usize`
subtraction here is `saturating_sub`, which is `Nat` subtraction.
`match_indices[0]` on an empty vector is a panic, modelled as `none`. -/
def calculateScore (text : List Char) (matchedCount : Nat) (mi : List Nat) :
    Option Nat :=
  match mi.get? 0 with
  | none => none
  | some m0 =>
    let penalty := LEADING_LETTER_PENALTY * m0
    let penalty := if penalty > MAX_LEADING_LETTER_PENALTY then MAX_LEADING_LETTER_PENALTY else penalty
    let score := 100 - penalty
    let score := score - m0 * UNMATCHED_LETTER_PENALTY
    calcScoreLoop text mi matchedCount matchedCount score

/-- Mutable loop state of the `while let` loop of `fuzzy_match`
(quick_open.rs lines 172-212). -/
structure ScanSt where
  mi : List Nat
  pci : Nat
  tci : Nat
  mc : Nat
  bestScore : Nat
  bestMi : List Nat
  firstMatch : Bool
  recMatched : Bool
deriving Repr, DecidableEq

/-- The `if first_match { if let Some(original) = original_match_indices { … } }`
step of `fuzzy_match` (quick_open.rs lines 180-186): on the first match of
a call, replace `match_indices` with the slice
`original_match_indices[0..matched_count]` and clear `first_match`.
`none` models the Rust panic when the slice bound exceeds the vector. -/
def firstMatchCopy (orig : Option (List Nat)) (st : ScanSt) : Option (List Nat × Bool) :=
  if st.firstMatch then
    match orig with
    | some o => if st.mc ≤ o.length then some (o.take st.mc, false) else none
    | none => some (st.mi, st.firstMatch)
  else some (st.mi, st.firstMatch)

/-- The `while let (Some(pat_char), Some(text_char)) = (pattern.next(), text.next())`
loop of `fuzzy_match` (quick_open.rs lines 172-212).  Both iterators are
advanced on every iteration (lockstep), exactly as in the source.
`recFn mi pci tci mc` is the recursive call
`self.fuzzy_match(pattern, &text[1..], Some(&match_indices), Vec::new(), pci, tci, mc, rc)`.
Result: `Sum.inl r` models the early `return (vec![], 0)` on hitting
`MATCH_LIMIT`; `Sum.inr st` is the state after the loop; `none` is a panic
(from the slice in `firstMatchCopy` or from the recursive call). -/
def scanLoop (matchLimit : Nat) (orig : Option (List Nat))
    (recFn : List Nat → Nat → Nat → Nat → Option (List Nat × Nat)) :
    List Char → List Char → ScanSt → Option (Sum (List Nat × Nat) ScanSt)
  | p :: ps, t :: ts, st =>
    if p.toLower = t.toLower then
      if st.mc ≥ matchLimit then some (Sum.inl ([], 0))
      else
        match firstMatchCopy orig st with
        | none => none
        | some (mi1, fm1) =>
          match recFn mi1 st.pci (st.tci + 1) st.mc with
          | none => none
          | some (rmi, rscore) =>
            if rscore > st.bestScore then
              scanLoop matchLimit orig recFn ps ts
                ⟨mi1 ++ [st.tci], st.pci + 1, st.tci + 1, st.mc + 1, rscore, rmi, fm1, true⟩
            else
              scanLoop matchLimit orig recFn ps ts
                ⟨mi1 ++ [st.tci], st.pci + 1, st.tci + 1, st.mc + 1,
                  st.bestScore, st.bestMi, fm1, st.recMatched⟩
    else
      scanLoop matchLimit orig recFn ps ts { st with tci := st.tci + 1 }
  | _, _, st => some (Sum.inr st)

/-- Rust `fn fuzzy_match` (quick_open.rs lines 144-231), with the two limits as
explicit parameters (the source fixes them to `MATCH_LIMIT` and
`RECURSION_LIMIT`).  `fuel` only drives structural recursion; since every
recursive call increments `recursion_count` and a call entered with
`recursion_count + 1 ≥ recLimit` returns immediately, any
`fuel ≥ recLimit + 1` is never exhausted when starting from
`recursion_count = 0`. -/
def fuzzyMatchCore (matchLimit recLimit : Nat) :
    Nat → List Char → List Char → Option (List Nat) → List Nat →
    Nat → Nat → Nat → Nat → Option (List Nat × Nat)
  | 0, _, _, _, _, _, _, _, _ => none
  | fuel + 1, pattern, text, orig, mi0, pci0, tci0, mc0, rc0 =>
    if rc0 + 1 ≥ recLimit ∨ pattern = [] then some ([], 0)
    else
      match scanLoop matchLimit
          (orig)
          (fun mi pci tci mc =>
            fuzzyMatchCore matchLimit recLimit fuel pattern text.tail
              (some mi) [] pci tci mc (rc0 + 1))
          pattern text ⟨mi0, pci0, tci0, mc0, 0, [], true, false⟩ with
      | none => none
      | some (Sum.inl r) => some r
      | some (Sum.inr st) =>
        if st.pci = pattern.length then
          match calculateScore text st.mc st.mi with
          | none => none
          | some score =>
            if st.recMatched ∧ st.bestScore > score then some (st.bestMi, st.bestScore)
            else some (st.mi, score)
        else
          if st.recMatched then some (st.bestMi, st.bestScore)
          else some ([], 0)

/-- The function `fuzzy_match` as called by `initiate_fuzzy_match` (quick_open.rs line
107): `self.fuzzy_match(query, item_name, None, Vec::new(), 0, 0, 0, 0)`. -/
def fuzzy_match (pattern text : List Char) : Option (List Nat × Nat) :=
  fuzzyMatchCore MATCH_LIMIT RECURSION_LIMIT (RECURSION_LIMIT + 1) pattern text none [] 0 0 0 0

/-- A path is a list of components, mirroring `std::path::Path` component
iteration (absolute paths: `/proj/src/foo.txt` is `["proj","src","foo.txt"]`,
the filesystem root `/` is `[]`). -/
abbrev FsPath := List String

/-- Rust `struct FuzzyResult` (quick_open.rs lines 26-32).  `result_name` is the
root-stripped path, kept as a component list (components never contain the
separator, so this determines the rendered string). -/
structure FuzzyResult where
  result_name : FsPath
  score : Nat
  match_indices : List Nat
deriving Repr, DecidableEq

/-- Rust `struct QuickOpen` (quick_open.rs lines 34-41). -/
structure State where
  root : FsPath
  workspace_items : List FsPath
  current_fuzzy_results : List FuzzyResult
deriving Repr, DecidableEq

/-- Rust `QuickOpen::new()` (quick_open.rs lines 50-56). -/
def State.new : State := ⟨[], [], []⟩

/-- Component-wise list inclusion test used to model both
`Path::strip_prefix` (`Ok` iff the root's components lead the item's) and
the ancestor relation on component lists. -/
def leads : FsPath → FsPath → Bool
  | [], _ => true
  | _ :: _, [] => false
  | x :: xs, y :: ys => x = y && leads xs ys

/-- Rust `Path::file_name`, modelled as the last component (the source
immediately converts it with `to_str().unwrap_or_default()`; model strings
are always valid UTF-8). -/
def fileName (p : FsPath) : Option String := p.getLast?

/-- The `for item in &self.workspace_items` loop of `initiate_fuzzy_match`
(quick_open.rs lines 102-138).  `acc` is `self.current_fuzzy_results`
(cleared before the loop).  `contains` uses the `PartialEq` impl for
`FuzzyResult` (lines 43-47), which compares only `result_name`.  The
`Err` arm of `strip_prefix` only logs and skips.  `none` propagates a panic
from `fuzzy_match`. -/
def initiateAux (q : List Char) (root : FsPath) :
    List FsPath → List FuzzyResult → Option (List FuzzyResult)
  | [], acc => some acc
  | item :: rest, acc =>
    match fileName item with
    | none => initiateAux q root rest acc
    | some name =>
      match fuzzy_match q name.data with
      | none => none
      | some (idxs, score) =>
        if idxs = [] then initiateAux q root rest acc
        else if leads root item then
          let r : FuzzyResult := ⟨item.drop root.length, score, idxs⟩
          if acc.any (fun x => x.result_name = r.result_name) then
            initiateAux q root rest acc
          else initiateAux q root rest (acc ++ [r])
        else initiateAux q root rest acc

/-- Rust `fn initiate_fuzzy_match` (quick_open.rs lines 100-139): clears
`current_fuzzy_results`, then runs the candidate loop. -/
def initiate_fuzzy_match (q : List Char) (st : State) : Option State :=
  (initiateAux q st.root st.workspace_items []).map
    (fun res => { st with current_fuzzy_results := res })

/-- The result a single candidate `item` would contribute in
`initiate_fuzzy_match` (`none`: skipped, or the pass panics).  Used to
state properties of the candidate loop. -/
def candidateResult (q : List Char) (root : FsPath) (item : FsPath) :
    Option FuzzyResult :=
  match fileName item with
  | none => none
  | some name =>
    match fuzzy_match q name.data with
    | none => none
    | some (idxs, score) =>
      if idxs = [] then none
      else if leads root item then some ⟨item.drop root.length, score, idxs⟩
      else none

/-- Modelled from the spec: "Retained results are keyed by relative path; a
later result for the same path overwrites an earlier one."  Identical to
`initiateAux` except that a result whose `result_name` is already present
overwrites the stored entry in place instead of being dropped. -/
def initiateAuxSpec (q : List Char) (root : FsPath) :
    List FsPath → List FuzzyResult → Option (List FuzzyResult)
  | [], acc => some acc
  | item :: rest, acc =>
    match fileName item with
    | none => initiateAuxSpec q root rest acc
    | some name =>
      match fuzzy_match q name.data with
      | none => none
      | some (idxs, score) =>
        if idxs = [] then initiateAuxSpec q root rest acc
        else if leads root item then
          let r : FuzzyResult := ⟨item.drop root.length, score, idxs⟩
          if acc.any (fun x => x.result_name = r.result_name) then
            initiateAuxSpec q root rest
              (acc.map (fun x => if x.result_name = r.result_name then r else x))
          else initiateAuxSpec q root rest (acc ++ [r])
        else initiateAuxSpec q root rest acc

/-- Modelled from the spec wording of the ResultRanker, with the
overwrite-on-duplicate retention of `initiateAuxSpec`. -/
def initiate_fuzzy_match_spec (q : List Char) (st : State) : Option State :=
  (initiateAuxSpec q st.root st.workspace_items []).map
    (fun res => { st with current_fuzzy_results := res })

/-- Stable descending insertion: `r` is placed before the first element
whose score is not greater than `r`'s.  A stable sort's output is uniquely
determined by the comparator, so this models the observable behaviour of
Rust's stable `sort_by(|a, b| b.score.cmp(&a.score))`. -/
def insertDesc (r : FuzzyResult) : List FuzzyResult → List FuzzyResult
  | [] => [r]
  | x :: xs => if r.score < x.score then x :: insertDesc r xs else r :: x :: xs

/-- Stable insertion sort by descending score (see `insertDesc`). -/
def sortDesc : List FuzzyResult → List FuzzyResult
  | [] => []
  | x :: xs => insertDesc x (sortDesc xs)

/-- Rust `fn get_quick_open_results` (quick_open.rs lines 93-97): sorts
`current_fuzzy_results` by descending score (stable) and returns it. -/
def get_quick_open_results (st : State) : List FuzzyResult × State :=
  let sorted := sortDesc st.current_fuzzy_results
  (sorted, { st with current_fuzzy_results := sorted })

/-- The filesystem a `QuickOpen` observes: `existsAt` models
`Path::exists`, `isFile` models `Path::is_file`, and `walk` models the
(error-filtered) enumeration produced by `ignore::Walk::new(root)` — an
external collaborator, kept abstract. -/
structure FileSys where
  existsAt : FsPath → Bool
  isFile : FsPath → Bool
  walk : FsPath → List FsPath

/-- The `while let Some(parent) = new_root.parent()` loop of
`initialize_workspace_matches` (quick_open.rs lines 62-65): the strict
ancestors of `p`, nearest first, ending with the top-most (`[]`).  `k`
counts remaining entries, so the entries are `p.take (k-1), …, p.take 0`. -/
def strictAncestorsAux (p : FsPath) : Nat → List FsPath
  | 0 => []
  | k + 1 => p.take k :: strictAncestorsAux p k

/-- All strict ancestors of `p`, nearest first. -/
def strictAncestors (p : FsPath) : List FsPath := strictAncestorsAux p p.length

/-- Root resolution of `initialize_workspace_matches` (quick_open.rs lines
59-74): start from `folder.parent().unwrap_or(folder)`, collect its strict
ancestors, pick the first containing a `.git` entry, else the top-most
ancestor collected (which is `[]`; when the start has no parent the
collection is empty and `new_root` stays `[]` as well).
`parentStart` is `folder.parent().unwrap_or(folder)` (quick_open.rs line 60). -/
def parentStart (folder : FsPath) : FsPath :=
  if folder.isEmpty then folder else folder.dropLast

def resolveRoot (fs : FileSys) (folder : FsPath) : FsPath :=
  match (strictAncestors (parentStart folder)).find?
      (fun a => fs.existsAt (a ++ [".git"])) with
  | some a => a
  | none => []

/-- The `Walk::new(..).for_each(..)` body (quick_open.rs lines 79-84):
append each enumerated path that is a file and not already present. -/
def walkDedupFiles (fs : FileSys) : List FsPath → List FsPath → List FsPath
  | [], acc => acc
  | p :: rest, acc =>
    if ¬ p ∈ acc ∧ fs.isFile p then walkDedupFiles fs rest (acc ++ [p])
    else walkDedupFiles fs rest acc

/-- Rust `fn initialize_workspace_matches` (quick_open.rs lines 58-90): resolve
the root; re-index (clear + walk) only when it differs from the cached
root; return the (new) root. -/
def initialize_workspace_matches (fs : FileSys) (st : State) (folder : FsPath) :
    FsPath × State :=
  let newRoot := resolveRoot fs folder
  if newRoot ≠ st.root then
    (newRoot,
      { st with root := newRoot,
                workspace_items := walkDedupFiles fs (fs.walk newRoot) [] })
  else (st.root, st)

/-- Modelled from the claim: the nearest ancestor directory of the file
(parent first, then grandparent, …) that contains a `.git` entry. -/
def nearestAncestorWithGit (fs : FileSys) (file : FsPath) : Option FsPath :=
  (file.dropLast :: strictAncestors file.dropLast).find?
    (fun a => fs.existsAt (a ++ [".git"]))

/-- Case-insensitive in-order subsequence test (the ordinary notion of a
fuzzy-match hit, used to state claims about valid matches). -/
def subseqCI : List Char → List Char → Bool
  | [], _ => true
  | _ :: _, [] => false
  | p :: ps, t :: ts =>
    if p.toLower = t.toLower then subseqCI ps ts else subseqCI (p :: ps) ts

/-- The `/proj/.git`, `/proj/src/foo.txt` tree of the root-resolution
scenario. -/
def fsProj : FileSys where
  existsAt p := p ∈ [[], ["proj"], ["proj", ".git"], ["proj", "src"], ["proj", "src", "foo.txt"]]
  isFile p := p ∈ [["proj", "src", "foo.txt"]]
  walk r :=
    if r = ["proj"] then [["proj"], ["proj", ".git"], ["proj", "src"], ["proj", "src", "foo.txt"]]
    else []

/-- A tree whose `.git` sits in the file's immediate parent:
`/a/b/.git`, `/a/b/f.txt`. -/
def fsDeepGit : FileSys where
  existsAt p := p ∈ [[], ["a"], ["a", "b"], ["a", "b", ".git"], ["a", "b", "f.txt"]]
  isFile p := p ∈ [["a", "b", "f.txt"]]
  walk _ := [["a"], ["a", "b"], ["a", "b", ".git"], ["a", "b", "f.txt"]]

/-- The starting state of `initiate_fuzzy_match` on which the adaptive-filter
claim fails: two candidates under root `[]`, scoring 132 and then 126. -/
def stTwo : State := ⟨[], [["ab"], ["aab"]], []⟩

/-- The state produced by the first call of `initialize_workspace_matches`
on the `/proj` tree, used to exercise the cached-root branch. -/
def stProj : State :=
  (initialize_workspace_matches fsProj State.new ["proj", "src", "foo.txt"]).2

lemma fuzzy_match_nil_pattern (t : List Char) : fuzzy_match [] t = some ([], 0) := rfl

lemma initiateAux_nil_query (root : FsPath) :
    ∀ (items : List FsPath) (acc : List FuzzyResult),
      initiateAux [] root items acc = some acc := by
  intro items
  induction items with
  | nil => intro acc; rfl
  | cons item rest ih =>
    intro acc
    cases hfn : fileName item with
    | none => simp [initiateAux, hfn, ih]
    | some name => simp [initiateAux, hfn, fuzzy_match_nil_pattern, ih]

/-- C7: for every candidate set, an empty query clears the results and
retains nothing, and `fuzzy_match` with an empty pattern returns empty
match indices and score 0 (an ordinary return, not a panic). -/
theorem C7_empty_query (st : State) (t : List Char) :
    initiate_fuzzy_match [] st = some { st with current_fuzzy_results := [] } ∧
    fuzzy_match [] t = some ([], 0) := by
  exact ⟨by simp [initiate_fuzzy_match, initiateAux_nil_query], fuzzy_match_nil_pattern t⟩

lemma mem_insertDesc (r y : FuzzyResult) :
    ∀ l, y ∈ insertDesc r l ↔ y = r ∨ y ∈ l := by
  intro l
  induction l with
  | nil => simp [insertDesc]
  | cons x xs ih =>
    by_cases h : r.score < x.score
    · simp only [insertDesc, if_pos h, List.mem_cons, ih]
      tauto
    · simp only [insertDesc, if_neg h, List.mem_cons]

lemma pairwise_insertDesc (r : FuzzyResult) :
    ∀ l, l.Pairwise (fun a b => b.score ≤ a.score) →
      (insertDesc r l).Pairwise (fun a b => b.score ≤ a.score) := by
  intro l
  induction l with
  | nil => intro _; simp [insertDesc]
  | cons x xs ih =>
    intro h
    rw [List.pairwise_cons] at h
    by_cases hlt : r.score < x.score
    · rw [insertDesc, if_pos hlt, List.pairwise_cons]
      refine ⟨?_, ih h.2⟩
      intro y hy
      rcases (mem_insertDesc r y xs).mp hy with rfl | hy'
      · exact Nat.le_of_lt hlt
      · exact h.1 y hy'
    · rw [insertDesc, if_neg hlt, List.pairwise_cons]
      refine ⟨?_, List.pairwise_cons.mpr h⟩
      intro y hy
      rcases List.mem_cons.mp hy with rfl | hy'
      · exact Nat.le_of_not_lt hlt
      · exact Nat.le_trans (h.1 y hy') (Nat.le_of_not_lt hlt)

lemma pairwise_sortDesc :
    ∀ l, (sortDesc l).Pairwise (fun a b => b.score ≤ a.score) := by
  intro l
  induction l with
  | nil => simp [sortDesc]
  | cons x xs ih => exact pairwise_insertDesc x _ ih

/-- C6: the list returned by `get_quick_open_results` is sorted in
non-increasing score order: every adjacent pair is ordered. -/
theorem C6_results_sorted (st : State) :
    List.Chain' (fun a b => b.score ≤ a.score) (get_quick_open_results st).1 :=
  (pairwise_sortDesc st.current_fuzzy_results).chain'

lemma walkDedupFiles_nodup (fs : FileSys) :
    ∀ (l acc : List FsPath), acc.Nodup → (walkDedupFiles fs l acc).Nodup := by
  intro l
  induction l with
  | nil => intro acc h; exact h
  | cons p rest ih =>
    intro acc h
    by_cases hc : ¬ p ∈ acc ∧ fs.isFile p = true
    · rw [walkDedupFiles, if_pos hc]
      refine ih _ ?_
      rw [List.nodup_append]
      refine ⟨h, List.nodup_singleton p, ?_⟩
      intro a ha hmem
      rw [List.mem_singleton] at hmem
      exact hc.1 (hmem ▸ ha)
    · rw [walkDedupFiles, if_neg hc]
      exact ih acc h

/-- C9: a call of `initialize_workspace_matches` whose resolved root equals
the cached root returns that root and leaves the whole state (in particular
the candidate set) unchanged; and the candidate set never acquires
duplicates. -/
theorem C9_same_root_noop (fs : FileSys) (st : State) (folder : FsPath) :
    (resolveRoot fs folder = st.root →
      initialize_workspace_matches fs st folder = (st.root, st)) ∧
    (st.workspace_items.Nodup →
      ((initialize_workspace_matches fs st folder).2).workspace_items.Nodup) := by
  constructor
  · intro h
    simp [initialize_workspace_matches, h]
  · intro h
    by_cases hr : resolveRoot fs folder ≠ st.root
    · simp only [initialize_workspace_matches, if_pos hr]
      exact walkDedupFiles_nodup fs _ _ List.nodup_nil
    · simp only [initialize_workspace_matches, if_neg hr]
      exact h

theorem C9_witness :
    resolveRoot fsProj ["proj", "src", "foo.txt"] = stProj.root ∧
    initialize_workspace_matches fsProj stProj ["proj", "src", "foo.txt"] =
      (stProj.root, stProj) ∧
    stProj.workspace_items.Nodup :=
  ⟨by decide,
   (C9_same_root_noop fsProj stProj ["proj", "src", "foo.txt"]).1 (by decide),
   (C9_same_root_noop fsProj State.new ["proj", "src", "foo.txt"]).2 (by decide)⟩

/-- C2 (divergence witness): `"ab"` is a valid in-order subsequence of
`"xaxbxab"`, but `fuzzy_match` returns no match at all (empty indices,
score 0) — not the claimed indices `[5, 6]`.  The lockstep `while let`
loop of `fuzzy_match` advances the pattern iterator on every text
character, so it never aligns the pattern anywhere. -/
theorem C2_code_returns_no_match :
    subseqCI ['a', 'b'] ['x', 'a', 'x', 'b', 'x', 'a', 'b'] = true ∧
    fuzzy_match ['a', 'b'] ['x', 'a', 'x', 'b', 'x', 'a', 'b'] = some ([], 0) := by
  decide

/-- C3 (divergence witness): both `"abc"` vs `"xabcx"` and `"abc"` vs
`"a_b_c"` are valid subsequence matches, yet `fuzzy_match` returns no
match (score 0) for both, so neither is a valid match for the code and the
claimed strict score ordering does not arise. -/
theorem C3_code_matches_neither :
    subseqCI ['a', 'b', 'c'] ['x', 'a', 'b', 'c', 'x'] = true ∧
    subseqCI ['a', 'b', 'c'] ['a', '_', 'b', '_', 'c'] = true ∧
    fuzzy_match ['a', 'b', 'c'] ['x', 'a', 'b', 'c', 'x'] = some ([], 0) ∧
    fuzzy_match ['a', 'b', 'c'] ['a', '_', 'b', '_', 'c'] = some ([], 0) := by
  decide

/-- The text `"aaaaaaaaaab"` (ten `a`s then `b`): the only alignment of
`"ab"` needs nine text shifts, i.e. recursion depth 10. -/
def tenAsB : List Char := ['a', 'a', 'a', 'a', 'a', 'a', 'a', 'a', 'a', 'a', 'b']

/-- C8: `"ab"` is a valid in-order subsequence of `"aaaaaaaaaab"`, yet
`fuzzy_match` reports no match (`([], 0)`) because reaching the only
alignment requires recursion depth `RECURSION_LIMIT`; the same algorithm
with the recursion limit raised to 20 finds the match `[9, 10]`. -/
theorem C8_limit_false_negative :
    subseqCI ['a', 'b'] tenAsB = true ∧
    fuzzy_match ['a', 'b'] tenAsB = some ([], 0) ∧
    fuzzyMatchCore MATCH_LIMIT 20 21 ['a', 'b'] tenAsB none [] 0 0 0 0 =
      some ([9, 10], 76) := by
  decide

/-- C1 (counterexample): running `initiate_fuzzy_match` with query `"ab"`
over candidates `ab` (scored 132) and `aab` (scored 126) retains *both*
results, although the second one's score 126 is below the running mean of
the scores computed so far at the moment it is scored (132 excluding it,
129 including it).  There is no score filter in the loop at all. -/
theorem C1_counterexample :
    initiate_fuzzy_match ['a', 'b'] stTwo =
      some ⟨[], [["ab"], ["aab"]],
        [⟨["ab"], 132, [0, 1]⟩, ⟨["aab"], 126, [1, 2]⟩]⟩ ∧
    126 < 132 ∧ 2 * 126 < 132 + 126 := by
  decide

/-- C4 (counterexample): with the tree `/a/b/.git`, `/a/b/f.txt`, the
nearest ancestor of the file containing `.git` is `/a/b`, but
`initialize_workspace_matches` resolves the root to `[]` (the top-most
ancestor): the upward walk starts at the *grandparent* of the file, so a
`.git` in the file's immediate parent directory is never examined. -/
theorem C4_counterexample :
    nearestAncestorWithGit fsDeepGit ["a", "b", "f.txt"] = some ["a", "b"] ∧
    (initialize_workspace_matches fsDeepGit State.new ["a", "b", "f.txt"]).1 = [] ∧
    ([] : FsPath) ≠ ["a", "b"] := by
  decide

lemma scanLoop_congr_pattern (ml : Nat) (orig : Option (List Nat))
    (recFn : List Nat → Nat → Nat → Nat → Option (List Nat × Nat)) :
    ∀ (ps₁ ps₂ ts : List Char) (st : ScanSt),
      ps₁.map Char.toLower = ps₂.map Char.toLower →
      scanLoop ml orig recFn ps₁ ts st = scanLoop ml orig recFn ps₂ ts st := by
  intro ps₁
  induction ps₁ with
  | nil =>
    intro ps₂ ts st h
    cases ps₂ with
    | nil => rfl
    | cons _ _ => simp at h
  | cons p₁ ps₁ ih =>
    intro ps₂ ts st h
    cases ps₂ with
    | nil => simp at h
    | cons p₂ ps₂ =>
      simp only [List.map_cons, List.cons.injEq] at h
      obtain ⟨hp, hps⟩ := h
      cases ts with
      | nil => rfl
      | cons t ts =>
        simp only [scanLoop, hp]
        by_cases hc : p₂.toLower = t.toLower
        · simp only [if_pos hc]
          by_cases hm : st.mc ≥ ml
          · simp only [if_pos hm]
          · simp only [if_neg hm]
            cases hcp : firstMatchCopy orig st with
            | none => rfl
            | some pr =>
              obtain ⟨mi1, fm1⟩ := pr
              dsimp only
              cases hrec : recFn mi1 st.pci (st.tci + 1) st.mc with
              | none => rfl
              | some r2 =>
                obtain ⟨rmi, rscore⟩ := r2
                dsimp only
                by_cases hb : rscore > st.bestScore
                · simp only [if_pos hb]
                  exact ih ps₂ ts _ hps
                · simp only [if_neg hb]
                  exact ih ps₂ ts _ hps
        · simp only [if_neg hc]
          exact ih ps₂ ts _ hps

lemma fuzzyMatchCore_congr_pattern (ml rl : Nat) :
    ∀ (fuel : Nat) (p₁ p₂ text : List Char) (orig : Option (List Nat)) (mi0 : List Nat)
      (pci0 tci0 mc0 rc0 : Nat),
      p₁.map Char.toLower = p₂.map Char.toLower →
      fuzzyMatchCore ml rl fuel p₁ text orig mi0 pci0 tci0 mc0 rc0 =
        fuzzyMatchCore ml rl fuel p₂ text orig mi0 pci0 tci0 mc0 rc0 := by
  intro fuel
  induction fuel with
  | zero => intro p₁ p₂ text orig mi0 pci0 tci0 mc0 rc0 _; rfl
  | succ fuel ih =>
    intro p₁ p₂ text orig mi0 pci0 tci0 mc0 rc0 h
    have hlen : p₁.length = p₂.length := by
      have h2 := congrArg List.length h
      simpa using h2
    have hnil : (p₁ = []) ↔ (p₂ = []) := by
      cases p₁ <;> cases p₂ <;> simp_all
    simp only [fuzzyMatchCore]
    by_cases hcond : rc0 + 1 ≥ rl ∨ p₁ = []
    · have hcond2 : rc0 + 1 ≥ rl ∨ p₂ = [] := by
        rcases hcond with h1 | h1
        · exact Or.inl h1
        · exact Or.inr (hnil.mp h1)
      rw [if_pos hcond, if_pos hcond2]
    · have hcond2 : ¬(rc0 + 1 ≥ rl ∨ p₂ = []) := by
        intro h1
        rcases h1 with h1 | h1
        · exact hcond (Or.inl h1)
        · exact hcond (Or.inr (hnil.mpr h1))
      rw [if_neg hcond, if_neg hcond2]
      have hrec :
          (fun mi pci tci mc =>
            fuzzyMatchCore ml rl fuel p₁ text.tail (some mi) [] pci tci mc (rc0 + 1)) =
          (fun mi pci tci mc =>
            fuzzyMatchCore ml rl fuel p₂ text.tail (some mi) [] pci tci mc (rc0 + 1)) := by
        funext mi pci tci mc
        exact ih p₁ p₂ text.tail (some mi) [] pci tci mc (rc0 + 1) h
      have hscan :
          scanLoop ml orig
            (fun mi pci tci mc =>
              fuzzyMatchCore ml rl fuel p₁ text.tail (some mi) [] pci tci mc (rc0 + 1))
            p₁ text ⟨mi0, pci0, tci0, mc0, 0, [], true, false⟩ =
          scanLoop ml orig
            (fun mi pci tci mc =>
              fuzzyMatchCore ml rl fuel p₂ text.tail (some mi) [] pci tci mc (rc0 + 1))
            p₂ text ⟨mi0, pci0, tci0, mc0, 0, [], true, false⟩ := by
        rw [hrec]
        exact scanLoop_congr_pattern ml orig _ p₁ p₂ text _ h
      rw [hscan]
      simp only [hlen]

/-- C10: `fuzzy_match` depends on the pattern only through its
ASCII-lowercased characters: two patterns with the same lowercase image
(e.g. one obtained from the other by flipping the case of ASCII letters)
produce identical match indices and identical score on every text. -/
theorem C10_pattern_case_insensitive (p₁ p₂ t : List Char)
    (h : p₁.map Char.toLower = p₂.map Char.toLower) :
    fuzzy_match p₁ t = fuzzy_match p₂ t :=
  fuzzyMatchCore_congr_pattern MATCH_LIMIT RECURSION_LIMIT (RECURSION_LIMIT + 1)
    p₁ p₂ t none [] 0 0 0 0 h

theorem C10_witness :
    (['A', 'B'].map Char.toLower = ['a', 'b'].map Char.toLower) ∧
    fuzzy_match ['A', 'B'] ['a', 'a', 'b'] = fuzzy_match ['a', 'b'] ['a', 'a', 'b'] ∧
    fuzzy_match ['a', 'b'] ['a', 'a', 'b'] = some ([1, 2], 126) :=
  ⟨by decide,
   C10_pattern_case_insensitive ['A', 'B'] ['a', 'b'] ['a', 'a', 'b'] (by decide),
   by decide⟩

lemma leads_append_drop :
    ∀ (r item : FsPath), leads r item = true → r ++ item.drop r.length = item := by
  intro r
  induction r with
  | nil => intro item _; simp
  | cons x xs ih =>
    intro item h
    cases item with
    | nil => simp [leads] at h
    | cons y ys =>
      simp only [leads, Bool.and_eq_true, decide_eq_true_eq] at h
      obtain ⟨rfl, h2⟩ := h
      simp only [List.length_cons, List.cons_append, List.drop_succ_cons, List.cons.injEq,
        true_and]
      exact ih ys h2

/-- Every result in the accumulator is the one its own (root-prepended)
relative path would produce: the loop invariant tying stored results to
their candidates. -/
def ResOk (q : List Char) (root : FsPath) (acc : List FuzzyResult) : Prop :=
  ∀ r ∈ acc, candidateResult q root (root ++ r.result_name) = some r

lemma map_id_of_eq {α : Type} (f : α → α) :
    ∀ l : List α, (∀ a ∈ l, f a = a) → l.map f = l := by
  intro l
  induction l with
  | nil => intro _; rfl
  | cons x xs ih =>
    intro h
    simp only [List.map_cons, h x (List.mem_cons_self x xs),
      ih (fun a ha => h a (List.mem_cons_of_mem x ha))]

lemma initiateAux_eq_spec (q : List Char) (root : FsPath) :
    ∀ (items : List FsPath) (acc : List FuzzyResult), ResOk q root acc →
      initiateAux q root items acc = initiateAuxSpec q root items acc := by
  intro items
  induction items with
  | nil => intro acc _; rfl
  | cons item rest ih =>
    intro acc hacc
    cases hfn : fileName item with
    | none =>
      simp only [initiateAux, initiateAuxSpec, hfn]
      exact ih acc hacc
    | some name =>
      cases hfm : fuzzy_match q name.data with
      | none => simp only [initiateAux, initiateAuxSpec, hfn, hfm]
      | some pr =>
        obtain ⟨idxs, score⟩ := pr
        simp only [initiateAux, initiateAuxSpec, hfn, hfm]
        split
        · exact ih acc hacc
        · rename_i hidx
          split
          · rename_i hld
            have hitem : root ++ item.drop root.length = item :=
              leads_append_drop root item hld
            have hcand : candidateResult q root item =
                some ⟨item.drop root.length, score, idxs⟩ := by
              simp [candidateResult, hfn, hfm, hidx, hld]
            split
            · rename_i hany
              have hmap : acc.map
                  (fun x => if x.result_name = item.drop root.length then
                    (⟨item.drop root.length, score, idxs⟩ : FuzzyResult) else x) = acc := by
                apply map_id_of_eq
                intro x hx
                by_cases hxn : x.result_name = item.drop root.length
                · rw [if_pos hxn]
                  have h1 := hacc x hx
                  rw [hxn, hitem, hcand] at h1
                  exact Option.some.inj h1
                · rw [if_neg hxn]
              rw [hmap]
              exact ih acc hacc
            · rename_i hany
              apply ih
              intro r hr
              rcases List.mem_append.mp hr with hr1 | hr2
              · exact hacc r hr1
              · rw [List.mem_singleton] at hr2
                subst hr2
                show candidateResult q root (root ++ item.drop root.length) = _
                rw [hitem, hcand]
          · exact ih acc hacc

lemma initiateAux_names_nodup (q : List Char) (root : FsPath) :
    ∀ (items : List FsPath) (acc res : List FuzzyResult),
      initiateAux q root items acc = some res →
      (acc.map (fun r => r.result_name)).Nodup →
      (res.map (fun r => r.result_name)).Nodup := by
  intro items
  induction items with
  | nil =>
    intro acc res h hacc
    rw [initiateAux] at h
    cases h
    exact hacc
  | cons item rest ih =>
    intro acc res h hacc
    rw [initiateAux] at h
    cases hfn : fileName item with
    | none =>
      rw [hfn] at h
      exact ih acc res h hacc
    | some name =>
      rw [hfn] at h
      dsimp only at h
      cases hfm : fuzzy_match q name.data with
      | none =>
        rw [hfm] at h
        exact Option.noConfusion h
      | some pr =>
        obtain ⟨idxs, score⟩ := pr
        rw [hfm] at h
        dsimp only at h
        split at h
        · exact ih acc res h hacc
        · split at h
          · split at h
            · exact ih _ res h hacc
            · rename_i hld hany
              refine ih _ res h ?_
              rw [List.map_append, List.nodup_append]
              refine ⟨hacc, by simp, ?_⟩
              intro a ha hb
              simp only [List.map_cons, List.map_nil, List.mem_singleton] at hb
              subst hb
              rw [List.mem_map] at ha
              obtain ⟨x, hx, hxa⟩ := ha
              exact hany (List.any_eq_true.mpr ⟨x, hx, by simp [hxa]⟩)
          · exact ih acc res h hacc

/-- The results of a (non-panicking) pass have pairwise distinct relative
paths. -/
def resultsNamesNodup : Option State → Prop
  | none => True
  | some st => (st.current_fuzzy_results.map (fun r => r.result_name)).Nodup

/-- C5: after any run of `initiate_fuzzy_match` the result list has at most
one result per relative path, and the pass is observably equal to the
spec's overwrite-on-duplicate retention (two candidates with the same
root-stripped path are the same candidate, so keeping the first result and
overwriting it with the later one produce the same list). -/
theorem C5_keyed_by_path (q : List Char) (st : State) :
    initiate_fuzzy_match q st = initiate_fuzzy_match_spec q st ∧
    resultsNamesNodup (initiate_fuzzy_match q st) := by
  constructor
  · unfold initiate_fuzzy_match initiate_fuzzy_match_spec
    rw [initiateAux_eq_spec q st.root st.workspace_items []
      (fun r hr => absurd hr (List.not_mem_nil r))]
  · cases h : initiateAux q st.root st.workspace_items [] with
    | none => simp [initiate_fuzzy_match, h, resultsNamesNodup]
    | some res =>
      have hres : initiate_fuzzy_match q st =
          some { st with current_fuzzy_results := res } := by
        simp [initiate_fuzzy_match, h]
      rw [hres]
      show (res.map (fun r => r.result_name)).Nodup
      exact initiateAux_names_nodup q st.root st.workspace_items [] res h (by simp)

lemma initiateAux_cons_exists (q : List Char) (root : FsPath) (hd : FsPath)
    (rest : List FsPath) (acc res : List FuzzyResult)
    (h : initiateAux q root (hd :: rest) acc = some res) :
    ∃ acc', initiateAux q root rest acc' = some res ∧
      (∀ r ∈ acc, r ∈ acc') ∧
      (∀ cres, candidateResult q root hd = some cres →
        ∃ r ∈ acc', r.result_name = cres.result_name) := by
  rw [initiateAux] at h
  cases hfn : fileName hd with
  | none =>
    rw [hfn] at h
    refine ⟨acc, h, fun r hr => hr, ?_⟩
    intro cres hc
    simp [candidateResult, hfn] at hc
  | some name =>
    rw [hfn] at h
    dsimp only at h
    cases hfm : fuzzy_match q name.data with
    | none =>
      rw [hfm] at h
      exact Option.noConfusion h
    | some pr =>
      obtain ⟨idxs, score⟩ := pr
      rw [hfm] at h
      dsimp only at h
      split at h
      · rename_i hidx
        refine ⟨acc, h, fun r hr => hr, ?_⟩
        intro cres hc
        simp [candidateResult, hfn, hfm, hidx] at hc
      · split at h
        · rename_i hidx hld
          have hcand : candidateResult q root hd =
              some ⟨hd.drop root.length, score, idxs⟩ := by
            simp [candidateResult, hfn, hfm, hidx, hld]
          split at h
          · rename_i hany
            refine ⟨acc, h, fun r hr => hr, ?_⟩
            intro cres hc
            rw [hcand] at hc
            obtain rfl := Option.some.inj hc
            rw [List.any_eq_true] at hany
            obtain ⟨x, hx, hxn⟩ := hany
            exact ⟨x, hx, by simpa using hxn⟩
          · rename_i hany
            refine ⟨acc ++ [⟨hd.drop root.length, score, idxs⟩], h,
              fun r hr => List.mem_append_left _ hr, ?_⟩
            intro cres hc
            rw [hcand] at hc
            obtain rfl := Option.some.inj hc
            exact ⟨⟨hd.drop root.length, score, idxs⟩,
              List.mem_append_right _ (List.mem_singleton_self _), rfl⟩
        · rename_i hidx hld
          refine ⟨acc, h, fun r hr => hr, ?_⟩
          intro cres hc
          simp [candidateResult, hfn, hfm, hidx, hld] at hc

lemma initiateAux_retains (q : List Char) (root : FsPath) :
    ∀ (items : List FsPath) (acc res : List FuzzyResult),
      initiateAux q root items acc = some res →
      (∀ r ∈ acc, ∃ r' ∈ res, r'.result_name = r.result_name) ∧
      (∀ item ∈ items, ∀ cres, candidateResult q root item = some cres →
        ∃ r ∈ res, r.result_name = cres.result_name) := by
  intro items
  induction items with
  | nil =>
    intro acc res h
    rw [initiateAux] at h
    cases h
    exact ⟨fun r hr => ⟨r, hr, rfl⟩,
      fun item hitem => absurd hitem (List.not_mem_nil item)⟩
  | cons hd rest ih =>
    intro acc res h
    obtain ⟨acc', h1, h2, h3⟩ := initiateAux_cons_exists q root hd rest acc res h
    obtain ⟨ihm, ihr⟩ := ih acc' res h1
    refine ⟨fun r hr => ihm r (h2 r hr), ?_⟩
    intro item hitem cres hc
    rcases List.mem_cons.mp hitem with rfl | hmem
    · obtain ⟨r, hr, hname⟩ := h3 cres hc
      obtain ⟨r', hr', hname'⟩ := ihm r hr
      exact ⟨r', hr', hname'.trans hname⟩
    · exact ihr item hmem cres hc

/-- C1 (amended): `initiate_fuzzy_match` applies no score filter of any
kind: every candidate whose `fuzzy_match` succeeds with nonempty match
indices (as packaged by `candidateResult`) is represented in the final
result list — regardless of how its score compares with any other
candidate's, in particular with a running mean of scores. -/
theorem C1_no_running_mean_filter (q : List Char) (st st' : State) (item : FsPath)
    (cres : FuzzyResult)
    (h1 : initiate_fuzzy_match q st = some st')
    (h2 : item ∈ st.workspace_items)
    (h3 : candidateResult q st.root item = some cres) :
    ∃ r ∈ st'.current_fuzzy_results, r.result_name = cres.result_name := by
  unfold initiate_fuzzy_match at h1
  cases h : initiateAux q st.root st.workspace_items [] with
  | none =>
    rw [h] at h1
    exact Option.noConfusion h1
  | some res =>
    rw [h] at h1
    rw [Option.map_some'] at h1
    obtain rfl := Option.some.inj h1
    show ∃ r ∈ res, r.result_name = cres.result_name
    obtain ⟨-, hr⟩ := initiateAux_retains q st.root st.workspace_items [] res h
    exact hr item h2 cres h3

theorem C1_witness :
    candidateResult ['a', 'b'] [] ["aab"] = some ⟨["aab"], 126, [1, 2]⟩ ∧
    ∃ r ∈ (State.mk [] [["ab"], ["aab"]]
        [⟨["ab"], 132, [0, 1]⟩, ⟨["aab"], 126, [1, 2]⟩]).current_fuzzy_results,
      r.result_name = (FuzzyResult.mk ["aab"] 126 [1, 2]).result_name :=
  ⟨by decide,
   C1_no_running_mean_filter ['a', 'b'] stTwo
     (State.mk [] [["ab"], ["aab"]]
       [⟨["ab"], 132, [0, 1]⟩, ⟨["aab"], 126, [1, 2]⟩])
     ["aab"] ⟨["aab"], 126, [1, 2]⟩ (by decide) (by decide) (by decide)⟩

lemma strictAncestorsAux_mem (p : FsPath) :
    ∀ (k : Nat) (a : FsPath),
      a ∈ strictAncestorsAux p k ↔ ∃ j, j < k ∧ a = p.take j := by
  intro k
  induction k with
  | zero => intro a; simp [strictAncestorsAux]
  | succ k ih =>
    intro a
    simp only [strictAncestorsAux, List.mem_cons, ih]
    constructor
    · rintro (rfl | ⟨j, hj, rfl⟩)
      · exact ⟨k, Nat.lt_succ_self k, rfl⟩
      · exact ⟨j, Nat.lt_succ_of_lt hj, rfl⟩
    · rintro ⟨j, hj, rfl⟩
      rcases Nat.lt_succ_iff_lt_or_eq.mp hj with h1 | rfl
      · exact Or.inr ⟨j, h1, rfl⟩
      · exact Or.inl rfl

lemma strictAncestorsAux_find?_some (pred : FsPath → Bool) (p : FsPath) :
    ∀ (k : Nat) (a : FsPath), (strictAncestorsAux p k).find? pred = some a →
      pred a = true ∧ ∃ j, j < k ∧ a = p.take j ∧
        ∀ i, j < i → i < k → pred (p.take i) = false := by
  intro k
  induction k with
  | zero => intro a h; simp [strictAncestorsAux] at h
  | succ k ih =>
    intro a h
    rw [strictAncestorsAux] at h
    by_cases hp : pred (p.take k) = true
    · rw [List.find?_cons_of_pos _ hp] at h
      obtain rfl := Option.some.inj h
      refine ⟨hp, k, Nat.lt_succ_self k, rfl, ?_⟩
      intro i h1 h2
      exact absurd h1 (Nat.not_lt.mpr (Nat.lt_succ_iff.mp h2))
    · rw [List.find?_cons_of_neg _ hp] at h
      obtain ⟨ha, j, hj, rfl, hmax⟩ := ih a h
      refine ⟨ha, j, Nat.lt_succ_of_lt hj, rfl, ?_⟩
      intro i h1 h2
      rcases Nat.lt_succ_iff_lt_or_eq.mp h2 with h3 | rfl
      · exact hmax i h1 h3
      · cases hb : pred (p.take i)
        · rfl
        · exact absurd hb hp

lemma leads_take : ∀ (j : Nat) (p : FsPath), leads (p.take j) p = true := by
  intro j
  induction j with
  | zero => intro p; rfl
  | succ j ih =>
    intro p
    cases p with
    | nil => rfl
    | cons x xs => simp [leads, ih]

lemma leads_length_le : ∀ (a p : FsPath), leads a p = true → a.length ≤ p.length := by
  intro a
  induction a with
  | nil => intro p _; exact Nat.zero_le _
  | cons x xs ih =>
    intro p h
    cases p with
    | nil => simp [leads] at h
    | cons y ys =>
      simp only [leads, Bool.and_eq_true] at h
      simpa using ih ys h.2

lemma leads_eq_take : ∀ (a p : FsPath), leads a p = true → a = p.take a.length := by
  intro a
  induction a with
  | nil => intro p _; rfl
  | cons x xs ih =>
    intro p h
    cases p with
    | nil => simp [leads] at h
    | cons y ys =>
      simp only [leads, Bool.and_eq_true, decide_eq_true_eq] at h
      obtain ⟨rfl, h2⟩ := h
      simpa using ih ys h2

lemma leads_full : ∀ (a p : FsPath), leads a p = true → a.length = p.length → a = p := by
  intro a p h hl
  have := leads_eq_take a p h
  rw [hl, List.take_length] at this
  exact this

/-- C4 (amended): `initialize_workspace_matches` always returns
`resolveRoot`; the resolved root is the *nearest strict ancestor of the
file's parent directory* (i.e. grandparent of the file and above — never
the immediate parent) containing a `.git` entry, and the top-most ancestor
`[]` when no such ancestor exists; in particular the
`/proj/.git`, `/proj/src/foo.txt` scenario resolves to `/proj`. -/
theorem C4_root_resolution (fs : FileSys) (st : State) (file : FsPath) :
    (initialize_workspace_matches fs st file).1 = resolveRoot fs file ∧
    (∀ a : FsPath, leads a (parentStart file) = true → a ≠ parentStart file →
      fs.existsAt (a ++ [".git"]) = true →
        leads (resolveRoot fs file) (parentStart file) = true ∧
        resolveRoot fs file ≠ parentStart file ∧
        fs.existsAt (resolveRoot fs file ++ [".git"]) = true ∧
        a.length ≤ (resolveRoot fs file).length) ∧
    ((∀ a : FsPath, leads a (parentStart file) = true → a ≠ parentStart file →
      fs.existsAt (a ++ [".git"]) = false) → resolveRoot fs file = []) ∧
    resolveRoot fsProj ["proj", "src", "foo.txt"] = ["proj"] := by
  refine ⟨?_, ?_, ?_, by decide⟩
  · by_cases hr : resolveRoot fs file ≠ st.root
    · simp [initialize_workspace_matches, hr]
    · rw [not_not] at hr
      simp [initialize_workspace_matches, hr]
  · intro a hle hne hgit
    have hlen : a.length < (parentStart file).length := by
      rcases Nat.lt_or_ge a.length (parentStart file).length with h1 | h1
      · exact h1
      · have h2 := leads_length_le a (parentStart file) hle
        exact absurd (leads_full a (parentStart file) hle (Nat.le_antisymm h2 h1)) hne
    have hmem : a = (parentStart file).take a.length := leads_eq_take a (parentStart file) hle
    cases hf : (strictAncestors (parentStart file)).find?
        (fun b => fs.existsAt (b ++ [".git"])) with
    | none =>
      have h0 := List.find?_eq_none.mp hf a ?_
      · exact absurd hgit (by simpa using h0)
      · rw [strictAncestors, strictAncestorsAux_mem]
        exact ⟨a.length, hlen, hmem⟩
    | some b =>
      have hroot : resolveRoot fs file = b := by
        rw [resolveRoot, hf]
      obtain ⟨hb, j, hj, rfl, hmax⟩ :=
        strictAncestorsAux_find?_some (fun b => fs.existsAt (b ++ [".git"]))
          (parentStart file) (parentStart file).length b hf
      have hjlen : ((parentStart file).take j).length = j := by
        simp [Nat.le_of_lt hj]
      rw [hroot]
      refine ⟨leads_take j (parentStart file), ?_, hb, ?_⟩
      · intro heq
        have := congrArg List.length heq
        rw [hjlen] at this
        exact Nat.ne_of_lt hj this
      · rw [hjlen]
        by_contra hcon
        rw [Nat.not_le] at hcon
        have h4 := hmax a.length hcon hlen
        rw [← hmem, hgit] at h4
        exact Bool.noConfusion h4
  · intro hno
    cases hf : (strictAncestors (parentStart file)).find?
        (fun b => fs.existsAt (b ++ [".git"])) with
    | none => rw [resolveRoot, hf]
    | some b =>
      obtain ⟨hb, j, hj, rfl, -⟩ :=
        strictAncestorsAux_find?_some (fun b => fs.existsAt (b ++ [".git"]))
          (parentStart file) (parentStart file).length b hf
      have hjlen : ((parentStart file).take j).length = j := by
        simp [Nat.le_of_lt hj]
      have hne : (parentStart file).take j ≠ parentStart file := by
        intro heq
        have := congrArg List.length heq
        rw [hjlen] at this
        exact Nat.ne_of_lt hj this
      have h5 := hno ((parentStart file).take j) (leads_take j (parentStart file)) hne
      rw [hb] at h5
      exact Bool.noConfusion h5

theorem C4_witness :
    leads (resolveRoot fsProj ["proj", "src", "foo.txt"])
        (parentStart ["proj", "src", "foo.txt"]) = true ∧
    resolveRoot fsProj ["proj", "src", "foo.txt"] ≠
        parentStart ["proj", "src", "foo.txt"] ∧
    fsProj.existsAt (resolveRoot fsProj ["proj", "src", "foo.txt"] ++ [".git"]) = true ∧
    (["proj"] : FsPath).length ≤ (resolveRoot fsProj ["proj", "src", "foo.txt"]).length :=
  (C4_root_resolution fsProj State.new ["proj", "src", "foo.txt"]).2.1 ["proj"]
    (by decide) (by decide) (by decide)

end QuickOpen
